import Mathlib

/-!
Verification of the SPX 15-minute backtest engine (`backtest_daily.py`).

The Python source is shallowly embedded:
* prices are modelled as rationals (`ℚ`),
* a pandas bar row becomes a `Bar` structure with a time stamp in minutes
  after midnight,
* `DataFrame.between_time` (inclusive on both ends by default, as pandas
  documents) becomes `between_time`,
* the per-day entry/exit scan of `backtest_unified_15m` becomes the
  recursive `scanLoop`, with the per-iteration entry evaluation
  (`entryStep`) and confirmed-exit evaluation (`exitStep`) split out
  exactly as they appear inside the Python `for` loop,
* the Excel merge (`append_trade_log`) works on lists of date-keyed rows;
  `sort_values` is modelled as a stable insertion sort and
  `drop_duplicates(keep="first")` as `drop_duplicates_keep_first`,
* `compute_metrics` works on the `PnL` column of the trade log, a `List ℚ`.
-/

namespace SPX

/-- One OHLC bar; `time` is minutes after midnight (e.g. 09:30 = 570),
mirroring the US/Eastern-stamped index of the downloaded frame. -/
structure Bar where
  time  : ℕ
  Open  : ℚ
  High  : ℚ
  Low   : ℚ
  Close : ℚ
deriving DecidableEq, Repr

instance : Inhabited Bar := ⟨⟨0, 0, 0, 0, 0⟩⟩

/-- pandas `DataFrame.between_time(t1, t2)` with the default
`inclusive="both"`: keeps the rows whose time of day lies in the closed
interval `[t1, t2]`. -/
def between_time (bars : List Bar) (t1 t2 : ℕ) : List Bar :=
  bars.filter (fun b => decide (t1 ≤ b.time ∧ b.time ≤ t2))

/-- Maximum of a column (pandas `Series.max`); the callers only apply it to
nonempty lists. -/
def listMax : List ℚ → ℚ
  | [] => 0
  | x :: xs => xs.foldl max x

/-- Minimum of a column (pandas `Series.min`); the callers only apply it to
nonempty lists. -/
def listMin : List ℚ → ℚ
  | [] => 0
  | x :: xs => xs.foldl min x

/-- Position direction, the Python strings "LONG" / "SHORT". -/
inductive Dir | LONG | SHORT
deriving DecidableEq, Repr

/-- The "Exit Reason" strings of Variant A. -/
inductive ExitReason | ResistanceConfirmed | SupportConfirmed | ClosingPrice
deriving DecidableEq, Repr

/-- One row appended to `results` by `backtest_unified_15m`. -/
structure Trade where
  Date   : ℕ
  Typ    : Dir
  Entry  : ℚ
  Exit   : ℚ
  Close  : ℚ
  PnL    : ℚ
  Result : String
  ExitReason : ExitReason
deriving DecidableEq, Repr

/-- Builds the dict appended to `results`: the three append sites of the
Python loop all compute `pnl = exit - entry` for LONG (resp. `entry - exit`
for SHORT) and `Result = "Profit" if pnl > 0 else ("Loss" if pnl < 0 else
"Flat")`. -/
def mkTrade (date : ℕ) (d : Dir) (entry exitPrice dayClose : ℚ)
    (reason : ExitReason) : Trade :=
  let pnl := if d = Dir.LONG then exitPrice - entry else entry - exitPrice
  { Date := date, Typ := d, Entry := entry, Exit := exitPrice,
    Close := dayClose, PnL := pnl,
    Result := if pnl > 0 then "Profit" else if pnl < 0 then "Loss" else "Flat",
    ExitReason := reason }

/-- `afternoon.iloc[i]`; every use in the source is guarded in-bounds, so a
default bar stands in for the out-of-bounds case that is never reached. -/
def bar (l : List Bar) (i : ℕ) : Bar := l.getD i default

/-- The entry evaluation of one loop iteration (the
`if pos is None and i <= len(afternoon) - 3` block): touch-and-reject of
support (resp. resistance) at bar `i`, confirmation by bar `i+1`, entry at
the open of bar `i+2`.  The SHORT test is an `elif` of the LONG touch
test. -/
def entryStep (afternoon : List Bar) (sup res : ℚ) (i : ℕ) : Option (Dir × ℚ) :=
  if i + 3 ≤ afternoon.length then
    let curr := bar afternoon i
    if curr.Low ≤ sup ∧ curr.Open > sup ∧ curr.Close > sup then
      if (bar afternoon (i + 1)).High > curr.High then
        some (Dir.LONG, (bar afternoon (i + 2)).Open)
      else none
    else if curr.High ≥ res ∧ curr.Open < res ∧ curr.Close < res then
      if (bar afternoon (i + 1)).Low < curr.Low then
        some (Dir.SHORT, (bar afternoon (i + 2)).Open)
      else none
    else none
  else none

/-- The confirmed-exit evaluation of one loop iteration (the
`if pos is not None and i < len(afternoon) - 1` block): returns the exit
price (open of bar `i+1`) and the reason when the confirmation fires. -/
def exitStep (afternoon : List Bar) (sup res : ℚ) (d : Dir) (i : ℕ) :
    Option (ℚ × ExitReason) :=
  if i + 1 < afternoon.length then
    let curr := bar afternoon i
    let next_bar := bar afternoon (i + 1)
    if d = Dir.LONG ∧ curr.High ≥ res then
      if next_bar.Low < curr.Low then
        some (next_bar.Open, ExitReason.ResistanceConfirmed)
      else none
    else if d = Dir.SHORT ∧ curr.Low ≤ sup then
      if next_bar.High > curr.High then
        some (next_bar.Open, ExitReason.SupportConfirmed)
      else none
    else none
  else none

/-- The `for i in range(len(afternoon))` loop of `backtest_unified_15m`.
`i` is the loop index and `gas` the number of iterations still to run; the
caller starts the loop with `i = 0` and `gas = len(afternoon)`, so the loop
runs exactly over `range(len(afternoon))`.  State `pos` carries the open
position (direction, entry price).  Within a single iteration the entry
evaluation runs first and the exit evaluation then sees the freshly updated
position, exactly as in the source; `break` after an append is modelled by
returning the singleton list. -/
def scanLoop (afternoon : List Bar) (sup res dayClose : ℚ) (date : ℕ) :
    ℕ → ℕ → Option (Dir × ℚ) → List Trade
  | _, 0, _ => []
  | i, gas + 1, pos =>
    match (match pos with
           | none => entryStep afternoon sup res i
           | some p => some p) with
    | none => scanLoop afternoon sup res dayClose date (i + 1) gas none
    | some (d, e) =>
      match exitStep afternoon sup res d i with
      | some (xp, r) => [mkTrade date d e xp dayClose r]
      | none =>
        if i + 1 = afternoon.length then
          [mkTrade date d e dayClose dayClose ExitReason.ClosingPrice]
        else scanLoop afternoon sup res dayClose date (i + 1) gas (some (d, e))

/-- Processing of one grouped day inside `backtest_unified_15m`: skip dates
already in the Excel file, require at least 8 reference bars, derive the
levels from the opens and closes of the reference window, scan the decision
window. -/
def processDay (existing_dates : List ℕ) (date : ℕ) (day_data : List Bar) :
    List Trade :=
  if date ∈ existing_dates then []
  else
    let morning := between_time day_data 570 690
    if morning.length < 8 then []
    else
      let morning_oc := morning.map Bar.Open ++ morning.map Bar.Close
      let res_level := listMax morning_oc
      let sup_level := listMin morning_oc
      let afternoon := between_time day_data 690 960
      let day_close := (day_data.getLastD default).Close
      scanLoop afternoon sup_level res_level day_close date 0 afternoon.length none

/-- `backtest_unified_15m`: the input frame is taken already grouped into
(date, bars-of-that-day) sessions, as `df.groupby(df.index.date)` yields
them. -/
def backtest_unified_15m (days : List (ℕ × List Bar))
    (existing_dates : List ℕ) : List Trade :=
  (days.map (fun p => processDay existing_dates p.1 p.2)).flatten

/-! ### Trade log store (`append_trade_log`) -/

/-- One persisted row of the Excel trade log: the `Date` key (days, already
normalised to a date as `pd.to_datetime(...).dt.date` does) plus an opaque
payload standing for the remaining columns of the row. -/
structure PRow where
  date    : ℕ
  payload : ℕ
deriving DecidableEq, Repr

/-- Comparison used by `sort_values("Date")`. -/
def dateLE (a b : PRow) : Prop := a.date ≤ b.date

instance : DecidableRel dateLE := fun a b => Nat.decLe a.date b.date

instance : IsTotal PRow dateLE := ⟨fun a b => Nat.le_total a.date b.date⟩

instance : IsTrans PRow dateLE := ⟨fun _ _ _ => Nat.le_trans⟩

/-- pandas `drop_duplicates(subset=["Date"], keep="first")`: keeps the first
row seen for each date.  `seen` accumulates the dates already kept. -/
def drop_duplicates_keep_first (seen : List ℕ) : List PRow → List PRow
  | [] => []
  | r :: rs =>
    if r.date ∈ seen then drop_duplicates_keep_first seen rs
    else r :: drop_duplicates_keep_first (r.date :: seen) rs

/-- `append_trade_log`: `store = none` models a missing Excel file,
`store = some existing` its parsed rows.  New trades whose date already
exists are filtered out, the remainder is appended, then the result is
sorted by date (`sort_values`, modelled as a stable insertion sort) and
deduplicated keeping the first occurrence. -/
def append_trade_log (store : Option (List PRow)) (trade_log : List PRow) :
    List PRow :=
  let combined :=
    match store with
    | some existing =>
      let existing_dates := existing.map PRow.date
      let new_trades := trade_log.filter (fun r => decide (r.date ∉ existing_dates))
      if new_trades ≠ [] then existing ++ new_trades else existing
    | none => trade_log
  drop_duplicates_keep_first [] (List.insertionSort dateLE combined)

/-! ### Metrics (`compute_metrics`) -/

/-- The dict returned by `compute_metrics`. -/
structure Metrics where
  trades       : ℕ
  win_rate     : ℚ
  max_drawdown : ℚ
  total_pnl    : ℚ
deriving DecidableEq, Repr

/-- pandas `Series.cumsum` (running total), with accumulator `acc`. -/
def cumsumAux (acc : ℚ) : List ℚ → List ℚ
  | [] => []
  | x :: xs => (acc + x) :: cumsumAux (acc + x) xs

/-- pandas `Series.cumsum`. -/
def cumsum (l : List ℚ) : List ℚ := cumsumAux 0 l

/-- pandas `Series.cummax` after the first element, with running maximum
`m`. -/
def cummaxAux (m : ℚ) : List ℚ → List ℚ
  | [] => []
  | x :: xs => max m x :: cummaxAux (max m x) xs

/-- pandas `Series.cummax` (running maximum). -/
def cummax : List ℚ → List ℚ
  | [] => []
  | x :: xs => x :: cummaxAux x xs

/-- `compute_metrics`, applied to the `PnL` column of the trade log (the
only column the source reads).  An empty log returns the all-zero dict
before anything else is computed. -/
def compute_metrics (pnls : List ℚ) : Metrics :=
  if pnls.isEmpty then ⟨0, 0, 0, 0⟩
  else
    let wins := (pnls.filter (fun p => decide (p > 0))).length
    let win_rate := (wins : ℚ) / pnls.length
    let equity := cumsum pnls
    let drawdown := List.zipWith (fun a b => a - b) equity (cummax equity)
    ⟨pnls.length, win_rate, listMin drawdown, pnls.sum⟩

/-! ### Persisted schema (`main`) -/

/-- The column projection `main` applies to the freshly computed trade log
immediately before `append_trade_log` persists it
(`trade_log[["Date", "Entry", "Exit", "Close", "Exit Reason", "PnL",
"Win Rate"]]`). -/
def persisted_columns : List String :=
  ["Date", "Entry", "Exit", "Close", "Exit Reason", "PnL", "Win Rate"]

/-- Renders the `Exit Reason` strings of the source. -/
def reasonString : ExitReason → String
  | ExitReason.ResistanceConfirmed => "Resistance Confirmed"
  | ExitReason.SupportConfirmed => "Support Confirmed"
  | ExitReason.ClosingPrice => "Closing Price"

/-- One persisted row as `main` writes it: the cells of a `Trade`, keyed by
column name, restricted to `persisted_columns` (the run-level formatted
win-rate string `winRate` fills the `Win Rate` cell). -/
def persist_row (winRate : String) (t : Trade) : List (String × String) :=
  [("Date", toString t.Date), ("Entry", toString t.Entry),
   ("Exit", toString t.Exit), ("Close", toString t.Close),
   ("Exit Reason", reasonString t.ExitReason), ("PnL", toString t.PnL),
   ("Win Rate", winRate)]

/-! ### Specification helpers (not part of the embedding) -/

/-- Index of the first loop iteration at which the entry evaluation fires,
starting at iteration `i` with `gas` iterations left, together with the
direction and entry price it produces. -/
def firstEntry (afternoon : List Bar) (sup res : ℚ) :
    ℕ → ℕ → Option (ℕ × Dir × ℚ)
  | _, 0 => none
  | i, gas + 1 =>
    match entryStep afternoon sup res i with
    | some (d, e) => some (i, d, e)
    | none => firstEntry afternoon sup res (i + 1) gas

/-- Index of the first loop iteration at which the confirmed-exit
evaluation fires for a position in direction `d`, starting at iteration `i`
with `gas` iterations left, with the exit price and reason it produces. -/
def firstExit (afternoon : List Bar) (sup res : ℚ) (d : Dir) :
    ℕ → ℕ → Option (ℕ × ℚ × ExitReason)
  | _, 0 => none
  | i, gas + 1 =>
    match exitStep afternoon sup res d i with
    | some (xp, r) => some (i, xp, r)
    | none => firstExit afternoon sup res d (i + 1) gas

/-! ### Concrete sessions used by witnesses and counterexamples -/

/-- A flat reference-window bar whose body spans exactly the levels
support = 4000 and resistance = 4020. -/
def mornBar (t : ℕ) : Bar := ⟨t, 4000, 4020, 4000, 4020⟩

/-- A session (8 reference bars at 09:30‥11:15, then three decision bars at
11:45, 12:00, 12:15) in which the same iteration both opens a LONG position
(entry at the open of decision bar 2) and confirms the exit on decision
bars 0 and 1, so the trade exits at the open of decision bar 1. -/
def exDayA : List Bar :=
  [mornBar 570, mornBar 585, mornBar 600, mornBar 615, mornBar 630,
   mornBar 645, mornBar 660, mornBar 675,
   ⟨705, 4010, 4022, 3998, 4012⟩,
   ⟨720, 4015, 4030, 3990, 4005⟩,
   ⟨735, 4008, 4010, 4000, 4001⟩]

/-- The decision window `between_time(11:30, 16:00)` of `exDayA`. -/
def exDayAAfternoon : List Bar := between_time exDayA 690 960

/-- Decision bars where the full SHORT pattern of the spec holds at bar 0
(high 4025 ≥ 4020 with body 4010/4012 below it, and bar 1 makes a lower
low) while the LONG touch test also holds (low 3995 ≤ 4000 with body above
it) but its confirmation fails (bar 1 high 4020 ≤ 4025). -/
def c1cexAfternoon : List Bar :=
  [⟨705, 4010, 4025, 3995, 4012⟩,
   ⟨720, 4011, 4020, 3990, 4006⟩,
   ⟨735, 4005, 4015, 3992, 4002⟩]

/-- Decision bars where both the full LONG pattern and the full SHORT
pattern hold at bar 0 (wide-ranging signal bar, outside bar next). -/
def c10Afternoon : List Bar :=
  [⟨705, 4010, 4021, 3999, 4012⟩,
   ⟨720, 4011, 4025, 3990, 4006⟩,
   ⟨735, 4007, 4015, 3992, 4002⟩]

/-- A bar stamped exactly at the 11:30 split time. -/
def c6bar : Bar := ⟨690, 0, 0, 0, 0⟩

/-- The single trade `backtest_unified_15m` emits on `exDayA`: LONG entry
at the open of decision bar 2 (4008), confirmed exit at the open of
decision bar 1 (4015). -/
def exTradeA : Trade :=
  { Date := 1, Typ := Dir.LONG, Entry := 4008, Exit := 4015, Close := 4001,
    PnL := 7, Result := "Profit", ExitReason := ExitReason.ResistanceConfirmed }

/-! ## Claim C6 — segmenter windows -/

/-- C6 (counterexample): the claim says the reference window is the
half-open interval [09:30, 11:30) so that a bar stamped exactly at 11:30
belongs only to the decision window.  In the code both `between_time`
calls are inclusive on both ends, so a bar stamped 11:30 (minute 690)
belongs to the reference window as well. -/
theorem c6_counterexample :
    c6bar ∈ between_time [c6bar] 570 690 ∧ c6bar ∈ between_time [c6bar] 690 960 := by
  decide

/-- C6 (amended): the reference window is the closed interval
[09:30, 11:30] and the decision window the closed interval [11:30, 16:00];
the two windows are not disjoint — they share exactly the bars stamped
11:30, which belong to both. -/
theorem c6_windows (bars : List Bar) (b : Bar) :
    (b ∈ between_time bars 570 690 ↔ b ∈ bars ∧ (570 ≤ b.time ∧ b.time ≤ 690)) ∧
    (b ∈ between_time bars 690 960 ↔ b ∈ bars ∧ (690 ≤ b.time ∧ b.time ≤ 960)) ∧
    ((b ∈ between_time bars 570 690 ∧ b ∈ between_time bars 690 960) ↔
      (b ∈ bars ∧ b.time = 690)) := by
  refine ⟨?_, ?_, ?_⟩
  · simp only [between_time, List.mem_filter, decide_eq_true_eq]
  · simp only [between_time, List.mem_filter, decide_eq_true_eq]
  · simp only [between_time, List.mem_filter, decide_eq_true_eq]
    constructor
    · rintro ⟨⟨hb, h1, h2⟩, -, h3, h4⟩
      exact ⟨hb, by omega⟩
    · rintro ⟨hb, h⟩
      exact ⟨⟨hb, by omega, by omega⟩, hb, by omega, by omega⟩

/-- C6 witness: the split-time bar evaluated through the amended theorem. -/
theorem c6_windows_witness :
    c6bar ∈ [c6bar] ∧ (570 ≤ c6bar.time ∧ c6bar.time ≤ 690) :=
  (c6_windows [c6bar] c6bar).1.mp (by decide)

/-! ## Claim C9 — persisted schema -/

/-- C9 (counterexample): the claim says every persisted row carries the
`Type` and `Result` columns; the projection `main` applies before
persisting drops both, as this concrete persisted row shows. -/
theorem c9_counterexample :
    "Type" ∉ (persist_row "0.00%"
      (mkTrade 1 Dir.LONG 4008 4015 4001 ExitReason.ResistanceConfirmed)).map Prod.fst ∧
    "Result" ∉ (persist_row "0.00%"
      (mkTrade 1 Dir.LONG 4008 4015 4001 ExitReason.ResistanceConfirmed)).map Prod.fst := by
  constructor <;> · simp only [persist_row, List.map_cons, List.map_nil]; decide

/-- C9 (amended): every row the Variant A run persists carries exactly the
columns {Date, Entry, Exit, Close, Exit Reason, PnL, Win Rate}; the Type
and Result columns are dropped by the projection in `main` and are absent
from the persisted record. -/
theorem c9_amended (winRate : String) (t : Trade) :
    (persist_row winRate t).map Prod.fst = persisted_columns ∧
    "Type" ∉ persisted_columns ∧ "Result" ∉ persisted_columns :=
  ⟨rfl, by decide, by decide⟩

/-- C9 witness: the amended schema statement at a concrete persisted row. -/
theorem c9_witness :
    (persist_row "50.00%"
      (mkTrade 2 Dir.SHORT 4015 4008 4003 ExitReason.SupportConfirmed)).map Prod.fst =
      persisted_columns ∧
    "Type" ∉ persisted_columns ∧ "Result" ∉ persisted_columns :=
  c9_amended "50.00%" (mkTrade 2 Dir.SHORT 4015 4008 4003 ExitReason.SupportConfirmed)

/-! ## Claim C10 — LONG precedence -/

/-- C10: when a single decision bar satisfies both full entry patterns
(the LONG support-test with higher-high confirmation and the SHORT
resistance-test with lower-low confirmation), the entry evaluation opens
the LONG position at the open of bar `i+2`; the SHORT branch is an `elif`
and is never reached. -/
theorem c10_long_precedence (afternoon : List Bar) (sup res : ℚ) (i : ℕ)
    (hgas : i + 3 ≤ afternoon.length)
    (hLow : (bar afternoon i).Low ≤ sup)
    (hOpen : (bar afternoon i).Open > sup)
    (hClose : (bar afternoon i).Close > sup)
    (hLconf : (bar afternoon (i + 1)).High > (bar afternoon i).High)
    (hHigh : (bar afternoon i).High ≥ res)
    (hOpenS : (bar afternoon i).Open < res)
    (hCloseS : (bar afternoon i).Close < res)
    (hSconf : (bar afternoon (i + 1)).Low < (bar afternoon i).Low) :
    entryStep afternoon sup res i = some (Dir.LONG, (bar afternoon (i + 2)).Open) := by
  simp only [entryStep]
  rw [if_pos hgas, if_pos ⟨hLow, hOpen, hClose⟩, if_pos hLconf]

/-- C10 witness: a concrete decision window whose signal bar satisfies
both patterns at once, evaluated through the theorem. -/
theorem c10_witness :
    entryStep c10Afternoon 4000 4020 0 = some (Dir.LONG, (bar c10Afternoon 2).Open) :=
  c10_long_precedence c10Afternoon 4000 4020 0 (by decide) (by decide) (by decide)
    (by decide) (by decide) (by decide) (by decide) (by decide) (by decide)

/-! ## Claim C1 — Variant A entry rule -/

/-- C1 (amended): while `Flat` with at least 3 bars remaining, the LONG
trigger (support test-and-reject at bar `i`, higher high at bar `i+1`)
opens a LONG at the open of bar `i+2`; the SHORT trigger (resistance
test-and-reject, lower low at bar `i+1`) opens a SHORT at the open of bar
`i+2` only when the LONG touch condition does not also hold at bar `i`
(the SHORT test is an `elif`); with fewer than 3 bars remaining no entry is
evaluated. -/
theorem c1_entry_rule (afternoon : List Bar) (sup res : ℚ) (i : ℕ) :
    (i + 3 ≤ afternoon.length →
      (bar afternoon i).Low ≤ sup → (bar afternoon i).Open > sup →
      (bar afternoon i).Close > sup →
      (bar afternoon (i + 1)).High > (bar afternoon i).High →
      entryStep afternoon sup res i = some (Dir.LONG, (bar afternoon (i + 2)).Open)) ∧
    (i + 3 ≤ afternoon.length →
      ¬((bar afternoon i).Low ≤ sup ∧ (bar afternoon i).Open > sup ∧
        (bar afternoon i).Close > sup) →
      (bar afternoon i).High ≥ res → (bar afternoon i).Open < res →
      (bar afternoon i).Close < res →
      (bar afternoon (i + 1)).Low < (bar afternoon i).Low →
      entryStep afternoon sup res i = some (Dir.SHORT, (bar afternoon (i + 2)).Open)) ∧
    (afternoon.length < i + 3 → entryStep afternoon sup res i = none) := by
  refine ⟨fun hgas h1 h2 h3 h4 => ?_, fun hgas hn h1 h2 h3 h4 => ?_, fun hlt => ?_⟩
  · simp only [entryStep]
    rw [if_pos hgas, if_pos ⟨h1, h2, h3⟩, if_pos h4]
  · simp only [entryStep]
    rw [if_pos hgas, if_neg hn, if_pos ⟨h1, h2, h3⟩, if_pos h4]
  · simp only [entryStep]
    rw [if_neg (by omega)]

/-- C1 counterexample: the claim's unconditional SHORT part fails.  At bar
0 of `c1cexAfternoon` (levels 4000/4020, 3 bars remaining) the full SHORT
pattern of the claim holds, yet no entry at all is opened, because the
LONG touch condition also holds and its confirmation fails inside the
taken LONG branch. -/
theorem c1_counterexample :
    ((bar c1cexAfternoon 0).High ≥ 4020 ∧ (bar c1cexAfternoon 0).Open < 4020 ∧
     (bar c1cexAfternoon 0).Close < 4020 ∧
     (bar c1cexAfternoon 1).Low < (bar c1cexAfternoon 0).Low ∧
     0 + 3 ≤ c1cexAfternoon.length) ∧
    entryStep c1cexAfternoon 4000 4020 0 = none := by
  decide

/-- C1 witness: the LONG part of the amended rule evaluated on the decision
window of `exDayA`. -/
theorem c1_witness :
    entryStep exDayAAfternoon 4000 4020 0 =
      some (Dir.LONG, (bar exDayAAfternoon 2).Open) :=
  (c1_entry_rule exDayAAfternoon 4000 4020 0).1 (by decide) (by decide) (by decide)
    (by decide) (by decide)

/-! ## State-machine lemmas shared by C2, C3 and C8 -/

/-- An entry produced at iteration `i` needs at least 3 bars from `i` and
prices at the open of bar `i+2`. -/
theorem entryStep_eq_some {afternoon : List Bar} {sup res : ℚ} {i : ℕ}
    {d : Dir} {e : ℚ} (h : entryStep afternoon sup res i = some (d, e)) :
    i + 3 ≤ afternoon.length ∧ e = (bar afternoon (i + 2)).Open := by
  simp only [entryStep] at h
  split_ifs at h with h1 h2 h3 h4 h5 <;>
    simp only [Option.some.injEq, Prod.mk.injEq, reduceCtorEq] at h
  · exact ⟨h1, h.2.symm⟩
  · exact ⟨h1, h.2.symm⟩

/-- A confirmed exit produced at iteration `i` needs a following bar,
prices at the open of bar `i+1`, and carries the reason matching the
direction together with the confirming conditions. -/
theorem exitStep_eq_some {afternoon : List Bar} {sup res : ℚ} {d : Dir}
    {i : ℕ} {xp : ℚ} {r : ExitReason}
    (h : exitStep afternoon sup res d i = some (xp, r)) :
    i + 1 < afternoon.length ∧ xp = (bar afternoon (i + 1)).Open ∧
    ((d = Dir.LONG ∧ r = ExitReason.ResistanceConfirmed ∧
        (bar afternoon i).High ≥ res ∧
        (bar afternoon (i + 1)).Low < (bar afternoon i).Low) ∨
     (d = Dir.SHORT ∧ r = ExitReason.SupportConfirmed ∧
        (bar afternoon i).Low ≤ sup ∧
        (bar afternoon (i + 1)).High > (bar afternoon i).High)) := by
  simp only [exitStep] at h
  split_ifs at h with h1 h2 h3 h4 h5 <;>
    simp only [Option.some.injEq, Prod.mk.injEq, reduceCtorEq] at h
  · exact ⟨h1, h.1.symm, Or.inl ⟨h2.1, h.2.symm, h2.2, h3⟩⟩
  · exact ⟨h1, h.1.symm, Or.inr ⟨h4.1, h.2.symm, h4.2, h5⟩⟩

/-- The confirmed-exit evaluation fires at no iteration that lacks a
following bar. -/
theorem exitStep_oob {afternoon : List Bar} {sup res : ℚ} {d : Dir} {k : ℕ}
    (h : afternoon.length ≤ k + 1) : exitStep afternoon sup res d k = none := by
  simp only [exitStep]
  rw [if_neg (by omega)]

/-- `firstEntry` returns an iteration no earlier than where it started, at
which the entry evaluation fires as reported. -/
theorem firstEntry_eq_some {afternoon : List Bar} {sup res : ℚ} :
    ∀ {gas i i0 : ℕ} {d : Dir} {e : ℚ},
      firstEntry afternoon sup res i gas = some (i0, d, e) →
      i ≤ i0 ∧ entryStep afternoon sup res i0 = some (d, e) := by
  intro gas
  induction gas with
  | zero => intro i i0 d e h; simp [firstEntry] at h
  | succ g ih =>
    intro i i0 d e h
    rw [firstEntry] at h
    cases he : entryStep afternoon sup res i with
    | some p =>
      obtain ⟨d1, e1⟩ := p
      rw [he] at h
      simp only [Option.some.injEq, Prod.mk.injEq] at h
      obtain ⟨rfl, rfl, rfl⟩ := h
      exact ⟨le_refl _, he⟩
    | none =>
      rw [he] at h
      obtain ⟨h1, h2⟩ := ih h
      exact ⟨by omega, h2⟩

/-- If the entry evaluation fires anywhere in the remaining range, then
`firstEntry` finds an iteration. -/
theorem firstEntry_isSome {afternoon : List Bar} {sup res : ℚ} :
    ∀ {gas i k : ℕ}, i ≤ k → k < i + gas →
      (entryStep afternoon sup res k).isSome →
      (firstEntry afternoon sup res i gas).isSome := by
  intro gas
  induction gas with
  | zero => intro i k h1 h2 _; omega
  | succ g ih =>
    intro i k h1 h2 h3
    rw [firstEntry]
    cases he : entryStep afternoon sup res i with
    | some p =>
      obtain ⟨d1, e1⟩ := p
      simp
    | none =>
      rcases Nat.eq_or_lt_of_le h1 with rfl | hlt
      · rw [he] at h3
        simp at h3
      · exact ih (by omega) (by omega) h3

/-- `firstExit` returns the first iteration, no earlier than where it
started, at which the confirmed-exit evaluation fires. -/
theorem firstExit_eq_some {afternoon : List Bar} {sup res : ℚ} {d : Dir} :
    ∀ {gas i j : ℕ} {xp : ℚ} {r : ExitReason},
      firstExit afternoon sup res d i gas = some (j, xp, r) →
      i ≤ j ∧ exitStep afternoon sup res d j = some (xp, r) ∧
        ∀ k, i ≤ k → k < j → exitStep afternoon sup res d k = none := by
  intro gas
  induction gas with
  | zero => intro i j xp r h; simp [firstExit] at h
  | succ g ih =>
    intro i j xp r h
    rw [firstExit] at h
    cases hx : exitStep afternoon sup res d i with
    | some p =>
      obtain ⟨xp1, r1⟩ := p
      rw [hx] at h
      simp only [Option.some.injEq, Prod.mk.injEq] at h
      obtain ⟨rfl, rfl, rfl⟩ := h
      exact ⟨le_refl _, hx, fun k hk1 hk2 => by omega⟩
    | none =>
      rw [hx] at h
      obtain ⟨h1, h2, h3⟩ := ih h
      refine ⟨by omega, h2, ?_⟩
      intro k hk1 hk2
      rcases Nat.eq_or_lt_of_le hk1 with rfl | hlt
      · exact hx
      · exact h3 k hlt hk2

/-- When `firstExit` finds nothing, the confirmed-exit evaluation fires at
no iteration of the remaining range. -/
theorem firstExit_eq_none {afternoon : List Bar} {sup res : ℚ} {d : Dir} :
    ∀ {gas i : ℕ}, firstExit afternoon sup res d i gas = none →
      ∀ k, i ≤ k → k < i + gas → exitStep afternoon sup res d k = none := by
  intro gas
  induction gas with
  | zero => intro i _ k h1 h2; omega
  | succ g ih =>
    intro i h k hk1 hk2
    rw [firstExit] at h
    cases hx : exitStep afternoon sup res d i with
    | some p => rw [hx] at h; cases h
    | none =>
      rw [hx] at h
      rcases Nat.eq_or_lt_of_le hk1 with rfl | hlt
      · exact hx
      · exact ih h k hlt (by omega)

/-- From iteration `i` onwards with a live position in direction `d`, the
loop emits exactly the trade determined by the first confirmed exit, or the
closing-price fallback when no confirmed exit fires before the last bar. -/
theorem scanLoop_pos_eq (afternoon : List Bar) (sup res dc : ℚ) (date : ℕ)
    (d : Dir) (e : ℚ) :
    ∀ gas i, i + gas = afternoon.length → i < afternoon.length →
      scanLoop afternoon sup res dc date i gas (some (d, e)) =
        (match firstExit afternoon sup res d i gas with
         | some (_, xp, r) => [mkTrade date d e xp dc r]
         | none => [mkTrade date d e dc dc ExitReason.ClosingPrice]) := by
  intro gas
  induction gas with
  | zero => intro i h1 h2; omega
  | succ g ih =>
    intro i h1 h2
    rw [firstExit]
    cases hx : exitStep afternoon sup res d i with
    | some p =>
      obtain ⟨xp, r⟩ := p
      simp [scanLoop, hx]
    | none =>
      by_cases hend : i + 1 = afternoon.length
      · have hg : g = 0 := by omega
        subst hg
        simp [scanLoop, hx, hend, firstExit]
      · simp only [scanLoop, hx, if_neg hend]
        exact ih (i + 1) (by omega) (by omega)

/-- From iteration `i` onwards while flat, the loop either never opens a
position and emits nothing, or reaches the first iteration at which the
entry evaluation fires and continues positioned from that same
iteration. -/
theorem scanLoop_flat_eq (afternoon : List Bar) (sup res dc : ℚ) (date : ℕ) :
    ∀ gas i, i + gas = afternoon.length →
      scanLoop afternoon sup res dc date i gas none =
        (match firstEntry afternoon sup res i gas with
         | some (i0, d, e) =>
             scanLoop afternoon sup res dc date i0 (afternoon.length - i0) (some (d, e))
         | none => []) := by
  intro gas
  induction gas with
  | zero => intro i h1; simp [scanLoop, firstEntry]
  | succ g ih =>
    intro i h1
    rw [firstEntry]
    cases he : entryStep afternoon sup res i with
    | none =>
      have hstep : scanLoop afternoon sup res dc date i (g + 1) none =
          scanLoop afternoon sup res dc date (i + 1) g none := by
        simp [scanLoop, he]
      rw [hstep]
      exact ih (i + 1) (by omega)
    | some p =>
      obtain ⟨d, e⟩ := p
      dsimp only
      have hlen : afternoon.length - i = g + 1 := by omega
      rw [hlen]
      simp [scanLoop, he]

/-- Every trade the loop emits is built by `mkTrade` for the session's date
and closing price. -/
theorem scanLoop_mem_shape (afternoon : List Bar) (sup res dc : ℚ) (date : ℕ) :
    ∀ gas i pos t, t ∈ scanLoop afternoon sup res dc date i gas pos →
      ∃ d e xp r, t = mkTrade date d e xp dc r := by
  intro gas
  induction gas with
  | zero => intro i pos t ht; simp [scanLoop] at ht
  | succ g ih =>
    intro i pos t ht
    rcases pos with _ | ⟨d, e⟩
    · cases he : entryStep afternoon sup res i with
      | none =>
        simp only [scanLoop, he] at ht
        exact ih _ _ _ ht
      | some p =>
        obtain ⟨d, e⟩ := p
        simp only [scanLoop, he] at ht
        cases hx : exitStep afternoon sup res d i with
        | some pr =>
          obtain ⟨xp, r⟩ := pr
          simp only [hx, List.mem_singleton] at ht
          exact ⟨d, e, xp, r, ht⟩
        | none =>
          simp only [hx] at ht
          by_cases hend : i + 1 = afternoon.length
          · rw [if_pos hend] at ht
            simp only [List.mem_singleton] at ht
            exact ⟨d, e, dc, ExitReason.ClosingPrice, ht⟩
          · rw [if_neg hend] at ht
            exact ih _ _ _ ht
    · cases hx : exitStep afternoon sup res d i with
      | some pr =>
        obtain ⟨xp, r⟩ := pr
        simp only [scanLoop, hx, List.mem_singleton] at ht
        exact ⟨d, e, xp, r, ht⟩
      | none =>
        simp only [scanLoop, hx] at ht
        by_cases hend : i + 1 = afternoon.length
        · rw [if_pos hend] at ht
          simp only [List.mem_singleton] at ht
          exact ⟨d, e, dc, ExitReason.ClosingPrice, ht⟩
        · rw [if_neg hend] at ht
          exact ih _ _ _ ht

/-- The `Result` string of the append sites matches the sign of the PnL
value it is computed from. -/
theorem result_string_iff (p : ℚ) :
    ((if p > 0 then "Profit" else if p < 0 then "Loss" else "Flat") = "Profit" ↔ 0 < p) ∧
    ((if p > 0 then "Profit" else if p < 0 then "Loss" else "Flat") = "Loss" ↔ p < 0) ∧
    ((if p > 0 then "Profit" else if p < 0 then "Loss" else "Flat") = "Flat" ↔ p = 0) := by
  split_ifs with h1 h2
  · exact ⟨⟨fun _ => h1, fun _ => rfl⟩,
      ⟨fun hs => absurd hs (by decide), fun h0 => absurd h0 (asymm h1)⟩,
      ⟨fun hs => absurd hs (by decide), fun h0 => absurd (h0 ▸ h1) (lt_irrefl 0)⟩⟩
  · exact ⟨⟨fun hs => absurd hs (by decide), fun h0 => absurd h0 h1⟩,
      ⟨fun _ => h2, fun _ => rfl⟩,
      ⟨fun hs => absurd hs (by decide), fun h0 => absurd (h0 ▸ h2) (lt_irrefl 0)⟩⟩
  · exact ⟨⟨fun hs => absurd hs (by decide), fun h0 => absurd h0 h1⟩,
      ⟨fun hs => absurd hs (by decide), fun h0 => absurd h0 h2⟩,
      ⟨fun _ => le_antisymm (not_lt.mp h1) (not_lt.mp h2), fun _ => rfl⟩⟩

/-- The three append sites all fill the dict the same way: the PnL matches
the direction and the `Result` string matches the PnL sign. -/
theorem mkTrade_consistent (date : ℕ) (d : Dir) (e xp dc : ℚ) (r : ExitReason) :
    ((mkTrade date d e xp dc r).Typ = Dir.LONG →
      (mkTrade date d e xp dc r).PnL =
        (mkTrade date d e xp dc r).Exit - (mkTrade date d e xp dc r).Entry) ∧
    ((mkTrade date d e xp dc r).Typ = Dir.SHORT →
      (mkTrade date d e xp dc r).PnL =
        (mkTrade date d e xp dc r).Entry - (mkTrade date d e xp dc r).Exit) ∧
    ((mkTrade date d e xp dc r).Result = "Profit" ↔ 0 < (mkTrade date d e xp dc r).PnL) ∧
    ((mkTrade date d e xp dc r).Result = "Loss" ↔ (mkTrade date d e xp dc r).PnL < 0) ∧
    ((mkTrade date d e xp dc r).Result = "Flat" ↔ (mkTrade date d e xp dc r).PnL = 0) := by
  have hr := result_string_iff (if d = Dir.LONG then xp - e else e - xp)
  refine ⟨?_, ?_, ?_, ?_, ?_⟩
  · intro hd
    cases d
    · simp [mkTrade]
    · simp [mkTrade] at hd
  · intro hd
    cases d
    · simp [mkTrade] at hd
    · simp [mkTrade]
  · simp only [mkTrade]
    exact hr.1
  · simp only [mkTrade]
    exact hr.2.1
  · simp only [mkTrade]
    exact hr.2.2

/-- Every trade a session emits is built by `mkTrade` for that session's
date and closing price. -/
theorem processDay_mem_shape (ex : List ℕ) (date : ℕ) (bars : List Bar)
    (t : Trade) (ht : t ∈ processDay ex date bars) :
    ∃ d e xp r, t = mkTrade date d e xp ((bars.getLastD default).Close) r := by
  simp only [processDay] at ht
  split_ifs at ht with h1 h2
  · simp at ht
  · simp at ht
  · exact scanLoop_mem_shape _ _ _ _ _ _ _ _ _ ht

/-! ## Claim C8 — PnL and Result consistency -/

/-- C8: for every trade the backtest emits, the PnL is exit − entry for
LONG and entry − exit for SHORT, and the `Result` string matches the PnL
sign on every exit path. -/
theorem c8_pnl_result (days : List (ℕ × List Bar)) (existing : List ℕ)
    (t : Trade) (ht : t ∈ backtest_unified_15m days existing) :
    (t.Typ = Dir.LONG → t.PnL = t.Exit - t.Entry) ∧
    (t.Typ = Dir.SHORT → t.PnL = t.Entry - t.Exit) ∧
    (t.Result = "Profit" ↔ 0 < t.PnL) ∧
    (t.Result = "Loss" ↔ t.PnL < 0) ∧
    (t.Result = "Flat" ↔ t.PnL = 0) := by
  simp only [backtest_unified_15m, List.mem_flatten, List.mem_map] at ht
  obtain ⟨l, ⟨p, hp, rfl⟩, htl⟩ := ht
  obtain ⟨d, e, xp, r, rfl⟩ := processDay_mem_shape _ _ _ _ htl
  exact mkTrade_consistent _ _ _ _ _ _

set_option maxRecDepth 10000 in
/-- C8 witness: the trade emitted on the concrete session `exDayA`,
evaluated through the theorem. -/
theorem c8_witness :
    (exTradeA.Typ = Dir.LONG → exTradeA.PnL = exTradeA.Exit - exTradeA.Entry) ∧
    (exTradeA.Typ = Dir.SHORT → exTradeA.PnL = exTradeA.Entry - exTradeA.Exit) ∧
    (exTradeA.Result = "Profit" ↔ 0 < exTradeA.PnL) ∧
    (exTradeA.Result = "Loss" ↔ exTradeA.PnL < 0) ∧
    (exTradeA.Result = "Flat" ↔ exTradeA.PnL = 0) :=
  c8_pnl_result [(1, exDayA)] [] exTradeA (by
    have h : backtest_unified_15m [(1, exDayA)] [] = [exTradeA] := by
      norm_num [backtest_unified_15m, processDay, between_time, listMax, listMin,
        scanLoop, entryStep, exitStep, bar, mkTrade, mornBar, exDayA, exTradeA,
        max_def, min_def, List.filter, List.getD, List.getLastD]
    rw [h]
    exact List.mem_singleton.mpr rfl)

/-! ## Claim C2 — exit postcondition -/

/-- C2: whenever the entry evaluation fires somewhere in a session's
decision window (i.e. a position opens), the scan emits exactly one trade
and stops.  The trade records the session date and closing price, the
direction and entry price of the entry that fired, and is closed by the
first confirmed exit — at the next bar's open, with reason Resistance
Confirmed for LONG (resistance touched, next bar lower low) or Support
Confirmed for SHORT (support touched, next bar higher high) — or, when no
confirmed exit fires, at the session closing price with reason Closing
Price. -/
theorem c2_single_trade (afternoon : List Bar) (sup res dc : ℚ) (date : ℕ)
    (hopen : ∃ k, (entryStep afternoon sup res k).isSome) :
    ∃ t, scanLoop afternoon sup res dc date 0 afternoon.length none = [t] ∧
      ∃ i0 d, entryStep afternoon sup res i0 = some (d, t.Entry) ∧
        t.Typ = d ∧ t.Date = date ∧ t.Close = dc ∧
        ((∃ j, i0 ≤ j ∧ j + 1 < afternoon.length ∧
            t.Exit = (bar afternoon (j + 1)).Open ∧
            (∀ k, i0 ≤ k → k < j → exitStep afternoon sup res d k = none) ∧
            ((t.ExitReason = ExitReason.ResistanceConfirmed ∧ d = Dir.LONG ∧
                (bar afternoon j).High ≥ res ∧
                (bar afternoon (j + 1)).Low < (bar afternoon j).Low) ∨
             (t.ExitReason = ExitReason.SupportConfirmed ∧ d = Dir.SHORT ∧
                (bar afternoon j).Low ≤ sup ∧
                (bar afternoon (j + 1)).High > (bar afternoon j).High))) ∨
         (t.ExitReason = ExitReason.ClosingPrice ∧ t.Exit = dc ∧
            ∀ k, i0 ≤ k → exitStep afternoon sup res d k = none)) := by
  obtain ⟨k, hk⟩ := hopen
  obtain ⟨⟨kd, ke⟩, hke⟩ := Option.isSome_iff_exists.mp hk
  have hk3 := (entryStep_eq_some hke).1
  have hfs : (firstEntry afternoon sup res 0 afternoon.length).isSome :=
    firstEntry_isSome (Nat.zero_le k) (by omega) hk
  obtain ⟨⟨i0, d, e⟩, hfe⟩ := Option.isSome_iff_exists.mp hfs
  obtain ⟨-, hes⟩ := firstEntry_eq_some hfe
  have hi3 := (entryStep_eq_some hes).1
  rw [scanLoop_flat_eq afternoon sup res dc date afternoon.length 0 (by omega), hfe]
  dsimp only
  rw [scanLoop_pos_eq afternoon sup res dc date d e (afternoon.length - i0) i0
    (by omega) (by omega)]
  cases hfx : firstExit afternoon sup res d i0 (afternoon.length - i0) with
  | some p =>
    obtain ⟨j, xp, r⟩ := p
    dsimp only
    obtain ⟨hij, hxs, hmin⟩ := firstExit_eq_some hfx
    obtain ⟨hjlen, hxp, hcond⟩ := exitStep_eq_some hxs
    refine ⟨mkTrade date d e xp dc r, rfl, i0, d, by simpa [mkTrade] using hes,
      by simp [mkTrade], by simp [mkTrade], by simp [mkTrade], Or.inl ?_⟩
    refine ⟨j, hij, hjlen, by simpa [mkTrade] using hxp, hmin, ?_⟩
    rcases hcond with ⟨hd, hrr, hc1, hc2⟩ | ⟨hd, hrr, hc1, hc2⟩
    · exact Or.inl ⟨by simp [mkTrade, hrr], hd, hc1, hc2⟩
    · exact Or.inr ⟨by simp [mkTrade, hrr], hd, hc1, hc2⟩
  | none =>
    dsimp only
    refine ⟨mkTrade date d e dc dc ExitReason.ClosingPrice, rfl, i0, d,
      by simpa [mkTrade] using hes, by simp [mkTrade], by simp [mkTrade],
      by simp [mkTrade], Or.inr ⟨by simp [mkTrade], by simp [mkTrade], ?_⟩⟩
    intro k2 hk2
    by_cases hkl : k2 + 1 < afternoon.length
    · exact firstExit_eq_none hfx k2 hk2 (by omega)
    · exact exitStep_oob (by omega)

/-- C2 witness: the concrete session `exDayA` evaluated through the
theorem. -/
theorem c2_witness :
    ∃ t, scanLoop exDayAAfternoon 4000 4020 4001 1 0 exDayAAfternoon.length none = [t] ∧
      ∃ i0 d, entryStep exDayAAfternoon 4000 4020 i0 = some (d, t.Entry) ∧
        t.Typ = d ∧ t.Date = 1 ∧ t.Close = 4001 ∧
        ((∃ j, i0 ≤ j ∧ j + 1 < exDayAAfternoon.length ∧
            t.Exit = (bar exDayAAfternoon (j + 1)).Open ∧
            (∀ k, i0 ≤ k → k < j → exitStep exDayAAfternoon 4000 4020 d k = none) ∧
            ((t.ExitReason = ExitReason.ResistanceConfirmed ∧ d = Dir.LONG ∧
                (bar exDayAAfternoon j).High ≥ 4020 ∧
                (bar exDayAAfternoon (j + 1)).Low < (bar exDayAAfternoon j).Low) ∨
             (t.ExitReason = ExitReason.SupportConfirmed ∧ d = Dir.SHORT ∧
                (bar exDayAAfternoon j).Low ≤ 4000 ∧
                (bar exDayAAfternoon (j + 1)).High > (bar exDayAAfternoon j).High))) ∨
         (t.ExitReason = ExitReason.ClosingPrice ∧ t.Exit = 4001 ∧
            ∀ k, i0 ≤ k → exitStep exDayAAfternoon 4000 4020 d k = none)) :=
  c2_single_trade exDayAAfternoon 4000 4020 4001 1 ⟨0, by decide⟩

/-! ## Claim C3 — exit never precedes entry -/

set_option maxRecDepth 10000 in
/-- C3 (counterexample): on `exDayA` the entry fires at decision bar 0
(entry at the open of bar 2, price 4008) and the exit is confirmed in the
same iteration by bars 0 and 1, so the emitted confirmed-exit trade exits
at the open of bar 1 (price 4015) — a bar strictly before the entry bar,
refuting the claim that the exit price is the open of a bar strictly after
the bar whose open is the entry price (the three decision-bar opens 4010,
4015, 4008 are pairwise distinct, so the bars are identified by their
opens). -/
theorem c3_counterexample :
    processDay [] 1 exDayA = [exTradeA] ∧
    exTradeA.ExitReason = ExitReason.ResistanceConfirmed ∧
    exTradeA.Exit = (bar exDayAAfternoon 1).Open ∧
    exTradeA.Entry = (bar exDayAAfternoon 2).Open ∧
    exDayAAfternoon.map Bar.Open = [4010, 4015, 4008] := by
  refine ⟨?_, rfl, by decide, by decide, by decide⟩
  norm_num [processDay, between_time, listMax, listMin, scanLoop, entryStep,
    exitStep, bar, mkTrade, mornBar, exDayA, exTradeA, max_def, min_def,
    List.filter, List.getD, List.getLastD]

/-- C3 (amended): for every trade emitted with a confirmed exit reason,
the confirming bar pair (j, j+1) occurs no earlier than the signal bar i0
at which the entry evaluation fired — the exit evaluation can begin in the
very iteration that opens the position — so the exit price is the open of
a bar strictly after the signal bar, but possibly at or before the entry
bar i0+2 whose open is the entry price. -/
theorem c3_exit_after_signal (afternoon : List Bar) (sup res dc : ℚ) (date : ℕ)
    (hopen : ∃ k, (entryStep afternoon sup res k).isSome) :
    ∃ t i0 d, scanLoop afternoon sup res dc date 0 afternoon.length none = [t] ∧
      entryStep afternoon sup res i0 = some (d, t.Entry) ∧
      t.Entry = (bar afternoon (i0 + 2)).Open ∧
      ((t.ExitReason = ExitReason.ResistanceConfirmed ∨
        t.ExitReason = ExitReason.SupportConfirmed) →
        ∃ j, i0 ≤ j ∧ j + 1 < afternoon.length ∧
          t.Exit = (bar afternoon (j + 1)).Open) := by
  obtain ⟨k, hk⟩ := hopen
  obtain ⟨⟨kd, ke⟩, hke⟩ := Option.isSome_iff_exists.mp hk
  have hk3 := (entryStep_eq_some hke).1
  have hfs : (firstEntry afternoon sup res 0 afternoon.length).isSome :=
    firstEntry_isSome (Nat.zero_le k) (by omega) hk
  obtain ⟨⟨i0, d, e⟩, hfe⟩ := Option.isSome_iff_exists.mp hfs
  obtain ⟨-, hes⟩ := firstEntry_eq_some hfe
  have hi3 := (entryStep_eq_some hes).1
  have hie := (entryStep_eq_some hes).2
  rw [scanLoop_flat_eq afternoon sup res dc date afternoon.length 0 (by omega), hfe]
  dsimp only
  rw [scanLoop_pos_eq afternoon sup res dc date d e (afternoon.length - i0) i0
    (by omega) (by omega)]
  cases hfx : firstExit afternoon sup res d i0 (afternoon.length - i0) with
  | some p =>
    obtain ⟨j, xp, r⟩ := p
    dsimp only
    obtain ⟨hij, hxs, -⟩ := firstExit_eq_some hfx
    obtain ⟨hjlen, hxp, -⟩ := exitStep_eq_some hxs
    refine ⟨mkTrade date d e xp dc r, i0, d, rfl, by simpa [mkTrade] using hes,
      by simpa [mkTrade] using hie, fun _ => ⟨j, hij, hjlen, by simpa [mkTrade] using hxp⟩⟩
  | none =>
    dsimp only
    refine ⟨mkTrade date d e dc dc ExitReason.ClosingPrice, i0, d, rfl,
      by simpa [mkTrade] using hes, by simpa [mkTrade] using hie, ?_⟩
    rintro (hr | hr) <;> simp [mkTrade] at hr

/-- C3 witness: the amended statement evaluated on `exDayA`. -/
theorem c3_witness :
    ∃ t i0 d, scanLoop exDayAAfternoon 4000 4020 4001 1 0 exDayAAfternoon.length none = [t] ∧
      entryStep exDayAAfternoon 4000 4020 i0 = some (d, t.Entry) ∧
      t.Entry = (bar exDayAAfternoon (i0 + 2)).Open ∧
      ((t.ExitReason = ExitReason.ResistanceConfirmed ∨
        t.ExitReason = ExitReason.SupportConfirmed) →
        ∃ j, i0 ≤ j ∧ j + 1 < exDayAAfternoon.length ∧
          t.Exit = (bar exDayAAfternoon (j + 1)).Open) :=
  c3_exit_after_signal exDayAAfternoon 4000 4020 4001 1 ⟨0, by decide⟩

/-! ## Trade-log store lemmas shared by C4 and C5 -/

/-- Deduplication keeps a subsequence of its input. -/
theorem drop_duplicates_sublist (l : List PRow) :
    ∀ seen : List ℕ, List.Sublist (drop_duplicates_keep_first seen l) l := by
  induction l with
  | nil => intro seen; simp [drop_duplicates_keep_first]
  | cons r rs ih =>
    intro seen
    rw [drop_duplicates_keep_first]
    split_ifs with h
    · exact (ih seen).cons r
    · exact (ih (r.date :: seen)).cons₂ r

/-- After deduplication the dates are pairwise distinct and disjoint from
the accumulator. -/
theorem drop_duplicates_dates_nodup (l : List PRow) :
    ∀ seen : List ℕ,
      ((drop_duplicates_keep_first seen l).map PRow.date).Nodup ∧
      ∀ d ∈ (drop_duplicates_keep_first seen l).map PRow.date, d ∉ seen := by
  induction l with
  | nil => intro seen; simp [drop_duplicates_keep_first]
  | cons r rs ih =>
    intro seen
    rw [drop_duplicates_keep_first]
    split_ifs with h
    · exact ih seen
    · obtain ⟨h1, h2⟩ := ih (r.date :: seen)
      refine ⟨?_, ?_⟩
      · simp only [List.map_cons, List.nodup_cons]
        exact ⟨fun hc => (h2 _ hc) (List.mem_cons_self _ _), h1⟩
      · intro d hd
        simp only [List.map_cons, List.mem_cons] at hd
        rcases hd with rfl | hd
        · exact h
        · exact fun hds => (h2 d hd) (List.mem_cons_of_mem _ hds)

/-- Deduplication preserves the set of dates not already consumed by the
accumulator. -/
theorem drop_duplicates_date_mem (l : List PRow) :
    ∀ (seen : List ℕ) (d : ℕ), d ∉ seen →
      (d ∈ (drop_duplicates_keep_first seen l).map PRow.date ↔
        d ∈ l.map PRow.date) := by
  induction l with
  | nil => intro seen d _; simp [drop_duplicates_keep_first]
  | cons r rs ih =>
    intro seen d hd
    rw [drop_duplicates_keep_first]
    split_ifs with h
    · rw [ih seen d hd]
      simp only [List.map_cons, List.mem_cons]
      constructor
      · exact Or.inr
      · rintro (rfl | hm)
        · exact absurd h hd
        · exact hm
    · simp only [List.map_cons, List.mem_cons]
      by_cases hdr : d = r.date
      · subst hdr; simp
      · rw [ih (r.date :: seen) d (by simp [hdr, hd])]

/-- Deduplicating a list whose dates are already pairwise distinct and
avoid the accumulator changes nothing. -/
theorem drop_duplicates_eq_self (l : List PRow) :
    ∀ seen : List ℕ, (l.map PRow.date).Nodup →
      (∀ d ∈ l.map PRow.date, d ∉ seen) →
      drop_duplicates_keep_first seen l = l := by
  induction l with
  | nil => intro seen _ _; rfl
  | cons r rs ih =>
    intro seen hnd hds
    rw [List.map_cons] at hnd
    have hnd' := List.nodup_cons.mp hnd
    rw [drop_duplicates_keep_first, if_neg (hds r.date (by simp))]
    congr 1
    refine ih (r.date :: seen) hnd'.2 ?_
    intro d hd hmem
    rcases List.mem_cons.mp hmem with rfl | hmem2
    · exact hnd'.1 hd
    · exact hds d (by simp [hd]) hmem2

/-- Every merged store is sorted ascending by date. -/
theorem append_trade_log_sorted (store : Option (List PRow)) (tl : List PRow) :
    List.Sorted dateLE (append_trade_log store tl) := by
  unfold append_trade_log
  exact (List.sorted_insertionSort dateLE _).sublist (drop_duplicates_sublist _ _)

/-- Every merged store has at most one row per date. -/
theorem append_trade_log_nodup (store : Option (List PRow)) (tl : List PRow) :
    ((append_trade_log store tl).map PRow.date).Nodup := by
  unfold append_trade_log
  exact (drop_duplicates_dates_nodup _ []).1

/-- After a merge, every date of the new batch is present in the store. -/
theorem mem_dates_append_trade_log (store : Option (List PRow)) (tl : List PRow)
    (r : PRow) (hr : r ∈ tl) :
    r.date ∈ (append_trade_log store tl).map PRow.date := by
  have key : ∀ combined : List PRow, r.date ∈ combined.map PRow.date →
      r.date ∈ (drop_duplicates_keep_first []
        (List.insertionSort dateLE combined)).map PRow.date := by
    intro combined hm
    rw [drop_duplicates_date_mem _ [] _ (by simp)]
    exact (((List.perm_insertionSort dateLE combined).map PRow.date).mem_iff).mpr hm
  unfold append_trade_log
  cases store with
  | none => exact key tl (List.mem_map_of_mem PRow.date hr)
  | some existing =>
    dsimp only
    by_cases hd : r.date ∈ existing.map PRow.date
    · split_ifs with hne
      · exact key _ (by simp only [List.map_append, List.mem_append]; exact Or.inl hd)
      · exact key _ hd
    · have hrf : r ∈ tl.filter (fun s => decide (s.date ∉ existing.map PRow.date)) := by
        simp only [List.mem_filter, decide_eq_true_eq]
        exact ⟨hr, hd⟩
      rw [if_pos (List.ne_nil_of_mem hrf)]
      refine key _ ?_
      simp only [List.map_append, List.mem_append]
      exact Or.inr (List.mem_map_of_mem PRow.date hrf)

/-! ## Claim C4 — append-policy idempotence -/

/-- C4: merging the identical new batch a second time against the store
produced by the first merge leaves the store unchanged — the second run
filters out every batch row (all its dates are already present), sorts an
already sorted store and deduplicates an already date-distinct store. -/
theorem c4_append_idempotent (store : Option (List PRow)) (batch : List PRow) :
    append_trade_log (some (append_trade_log store batch)) batch =
      append_trade_log store batch := by
  have hfilter : batch.filter
      (fun s => decide (s.date ∉ (append_trade_log store batch).map PRow.date)) = [] := by
    rw [List.filter_eq_nil_iff]
    intro a ha
    simp only [decide_eq_true_eq, not_not]
    exact mem_dates_append_trade_log store batch a ha
  have hsorted : List.Sorted dateLE (append_trade_log store batch) :=
    append_trade_log_sorted store batch
  have hnodup : ((append_trade_log store batch).map PRow.date).Nodup :=
    append_trade_log_nodup store batch
  conv_lhs => rw [append_trade_log]
  dsimp only
  rw [hfilter, if_neg (by simp), hsorted.insertionSort_eq]
  exact drop_duplicates_eq_self _ [] hnodup (by simp)

/-! ## Claim C5 — merge uniqueness and conflict resolution -/

/-- C5: after any append-policy merge the store has at most one row per
date and is sorted ascending by date, and for a date present in both the
existing store and the new batch the surviving row is the pre-existing one
(the batch row with that date is filtered out before concatenation). -/
theorem c5_merge_invariants (existing batch : List PRow) :
    ((append_trade_log (some existing) batch).map PRow.date).Nodup ∧
    List.Sorted dateLE (append_trade_log (some existing) batch) ∧
    (∀ d, d ∈ existing.map PRow.date → d ∈ batch.map PRow.date →
      ∀ r ∈ append_trade_log (some existing) batch, r.date = d → r ∈ existing) := by
  refine ⟨append_trade_log_nodup _ _, append_trade_log_sorted _ _, ?_⟩
  intro d hde hdb r hr hrd
  unfold append_trade_log at hr
  dsimp only at hr
  have h1 := (drop_duplicates_sublist _ []).subset hr
  have h2 := (List.perm_insertionSort dateLE _).mem_iff.mp h1
  split_ifs at h2 with hne
  · rcases List.mem_append.mp h2 with h3 | h3
    · exact h3
    · exfalso
      have := (List.mem_filter.mp h3).2
      simp only [decide_eq_true_eq] at this
      exact this (hrd ▸ hde)
  · exact h2

/-- C4 witness: the idempotence equation at a concrete store and batch. -/
theorem c4_witness :
    append_trade_log (some (append_trade_log (some [⟨1, 10⟩]) [⟨2, 20⟩])) [⟨2, 20⟩] =
      append_trade_log (some [⟨1, 10⟩]) [⟨2, 20⟩] :=
  c4_append_idempotent (some [⟨1, 10⟩]) [⟨2, 20⟩]

/-- C5 witness: with existing rows for dates 1 and 3 and a batch carrying a
conflicting date 1 and a new date 2, the kept row for date 1 is the
pre-existing one. -/
theorem c5_witness :
    (⟨1, 10⟩ : PRow) ∈ ([⟨1, 10⟩, ⟨3, 30⟩] : List PRow) :=
  (c5_merge_invariants [⟨1, 10⟩, ⟨3, 30⟩] [⟨1, 99⟩, ⟨2, 20⟩]).2.2 1
    (by decide) (by decide) ⟨1, 10⟩ (by decide) (by decide)

/-! ## Claim C7 — metrics bounds -/

/-- Every pointwise difference between a series and its running maximum
continued from `m` is nonpositive. -/
theorem zipWith_sub_cummaxAux_nonpos (l : List ℚ) :
    ∀ m : ℚ, ∀ x ∈ List.zipWith (fun a b => a - b) l (cummaxAux m l), x ≤ 0 := by
  induction l with
  | nil => intro m x hx; simp [cummaxAux] at hx
  | cons y ys ih =>
    intro m x hx
    simp only [cummaxAux, List.zipWith_cons_cons, List.mem_cons] at hx
    rcases hx with rfl | hx
    · exact sub_nonpos.mpr (le_max_right m y)
    · exact ih (max m y) x hx

/-- Every pointwise difference between a series and its running maximum is
nonpositive. -/
theorem zipWith_sub_cummax_nonpos (l : List ℚ) :
    ∀ x ∈ List.zipWith (fun a b => a - b) l (cummax l), x ≤ 0 := by
  cases l with
  | nil => simp [cummax]
  | cons y ys =>
    intro x hx
    simp only [cummax, List.zipWith_cons_cons, List.mem_cons] at hx
    rcases hx with rfl | hx
    · simp
    · exact zipWith_sub_cummaxAux_nonpos ys y x hx

/-- A left fold by `min` never exceeds its initial value. -/
theorem foldl_min_le_init (l : List ℚ) : ∀ a : ℚ, l.foldl min a ≤ a := by
  induction l with
  | nil => intro a; simp
  | cons y ys ih =>
    intro a
    calc ys.foldl min (min a y) ≤ min a y := ih _
      _ ≤ a := min_le_left _ _

/-- `listMin` of a list of nonpositives is nonpositive. -/
theorem listMin_nonpos (l : List ℚ) (h : ∀ x ∈ l, x ≤ 0) : listMin l ≤ 0 := by
  cases l with
  | nil => simp [listMin]
  | cons y ys =>
    exact le_trans (foldl_min_le_init ys y) (h y (List.mem_cons_self y ys))

/-- The running maximum of a nondecreasing series continued from a value
below its head is the series itself. -/
theorem cummaxAux_eq_of_chain (l : List ℚ) :
    ∀ m : ℚ, List.Chain' (· ≤ ·) (m :: l) → cummaxAux m l = l := by
  induction l with
  | nil => intro m _; rfl
  | cons y ys ih =>
    intro m hc
    rw [List.chain'_cons] at hc
    simp [cummaxAux, max_eq_right hc.1, ih y hc.2]

/-- The running maximum of a nondecreasing series is the series itself. -/
theorem cummax_eq_of_chain (l : List ℚ) (h : List.Chain' (· ≤ ·) l) :
    cummax l = l := by
  cases l with
  | nil => rfl
  | cons y ys => simp [cummax, cummaxAux_eq_of_chain ys y h]

/-- Subtracting a series from itself pointwise gives zeros. -/
theorem zipWith_sub_self_zero (l : List ℚ) :
    ∀ x ∈ List.zipWith (fun a b => a - b) l l, x = 0 := by
  induction l with
  | nil => simp
  | cons y ys ih =>
    intro x hx
    simp only [List.zipWith_cons_cons, List.mem_cons] at hx
    rcases hx with rfl | hx
    · simp
    · exact ih x hx

/-- A left fold by `min` over zeros starting from zero is zero. -/
theorem foldl_min_zeros (l : List ℚ) :
    ∀ a : ℚ, a = 0 → (∀ x ∈ l, x = 0) → l.foldl min a = 0 := by
  induction l with
  | nil => intro a ha _; simpa using ha
  | cons y ys ih =>
    intro a ha h
    simp only [List.foldl_cons]
    refine ih (min a y) ?_ (fun x hx => h x (List.mem_cons_of_mem _ hx))
    rw [ha, h y (List.mem_cons_self y ys)]
    simp

/-- `listMin` of a list of zeros is zero. -/
theorem listMin_zeros (l : List ℚ) (h : ∀ x ∈ l, x = 0) : listMin l = 0 := by
  cases l with
  | nil => rfl
  | cons y ys =>
    exact foldl_min_zeros ys y (h y (List.mem_cons_self y ys))
      (fun x hx => h x (List.mem_cons_of_mem _ hx))

/-- C7: `compute_metrics` always reports a nonpositive max drawdown, the
drawdown is zero whenever the running cumulative PnL is nondecreasing, and
an empty trade collection yields the all-zero metrics dict. -/
theorem c7_metrics_bounds (pnls : List ℚ) :
    (compute_metrics pnls).max_drawdown ≤ 0 ∧
    (List.Chain' (· ≤ ·) (cumsum pnls) → (compute_metrics pnls).max_drawdown = 0) ∧
    (pnls = [] → compute_metrics pnls = ⟨0, 0, 0, 0⟩) := by
  by_cases hp : pnls.isEmpty
  · have hnil : pnls = [] := List.isEmpty_iff.mp hp
    subst hnil
    exact ⟨le_refl _, fun _ => rfl, fun _ => rfl⟩
  · have hne : pnls ≠ [] := fun h => hp (by simp [h])
    refine ⟨?_, ?_, fun h => absurd h hne⟩
    · simp only [compute_metrics, hp, if_false, Bool.false_eq_true]
      exact listMin_nonpos _ (zipWith_sub_cummax_nonpos _)
    · intro hc
      simp only [compute_metrics, hp, if_false, Bool.false_eq_true]
      rw [cummax_eq_of_chain _ hc]
      exact listMin_zeros _ (zipWith_sub_self_zero _)

/-- C7 witness: a nondecreasing cumulative PnL series realises zero
drawdown, and the empty collection realises the all-zero dict. -/
theorem c7_witness :
    (compute_metrics [1, 2]).max_drawdown = 0 ∧ compute_metrics [] = ⟨0, 0, 0, 0⟩ :=
  ⟨(c7_metrics_bounds [1, 2]).2.1 (by norm_num [cumsum, cumsumAux]),
   (c7_metrics_bounds []).2.2 rfl⟩

end SPX
